import Mathlib

/-!
Shallow embedding of the MCMC repository (Metropolis Algorithm/metropolis.py
and Hamiltonian Monte Carlo/HMC.py).

Conventions of the embedding:
* Python floats are modelled as rationals (`ℚ`); the numerical claims under
  scrutiny are structural, not about rounding.
* External collaborators (the numpy generator, `scipy` distributions, the
  gradient oracle `autolik.grad`, `np.exp`) enter as parameters: the per
  iteration draws of the jump distribution and of the acceptance uniform are
  given as streams `Nat → ℚ`, the exponential as a function `ℚ → ℚ`.
* `numpy` arrays are modelled by `List ℚ`; in-place operations (`+=`, `-=`)
  are tracked by explicit state passing, and aliasing between names bound to
  the same array is resolved by hand: where two Python names denote one
  mutated array, the embedding uses the single value that array holds at the
  program point in question (commented at each spot).
-/

namespace MCMCRepo

/-- Extended rationals modelling the float values stored in `space`
(`-np.inf`, finite floats, `np.inf`).  metropolis.py only ever compares a
finite proposal against the two entries of `space`. -/
inductive XRat where
  | negInf : XRat
  | fin (q : ℚ) : XRat
  | posInf : XRat
deriving DecidableEq, Repr

/-- `x < b` for a finite float `x` and a `space` entry `b`
(metropolis.py line 120: `theta_pro < self.space[0]`). -/
def qLt (x : ℚ) : XRat → Bool
  | XRat.negInf => false
  | XRat.fin l => decide (x < l)
  | XRat.posInf => true

/-- `x > b` for a finite float `x` and a `space` entry `b`
(metropolis.py line 120: `theta_pro > self.space[1]`). -/
def qGt (x : ℚ) : XRat → Bool
  | XRat.negInf => true
  | XRat.fin h => decide (h < x)
  | XRat.posInf => false

/-- The object stored in the `dfunc` attribute: either a callable density
(one scalar in, one scalar out) or some non-callable object.  metropolis.py
checks `callable(self.dfunc)` (line 109). -/
inductive DFunc where
  | callable (f : ℚ → ℚ) : DFunc
  | notCallable : DFunc

/-- The attribute state of an `MCMC` object (metropolis.py `__init__`,
lines 37-51).  The jump distribution is represented by the stream of draws
it would produce (`iteration ↦ Δθ`), its only use in the algorithm. -/
structure Config where
  dfunc : DFunc
  chain : Nat
  theta_init : ℚ
  jump : Nat → ℚ
  space : XRat × XRat
  burnin : Nat
  seed : Option Nat

/-- One keyword argument to `MCMC.metropolis` (lines 88-106): the six
recognized keys carrying their value, or an unrecognized key. -/
inductive Kwarg where
  | chain (n : Nat) : Kwarg
  | theta_init (v : ℚ) : Kwarg
  | jumpdist (j : Nat → ℚ) : Kwarg
  | space (s : XRat × XRat) : Kwarg
  | burnin (b : Nat) : Kwarg
  | seed (s : Option Nat) : Kwarg
  | unknown (name : String) : Kwarg

/-- Whether a keyword argument is unrecognized. -/
def Kwarg.isUnknown : Kwarg → Bool
  | Kwarg.unknown _ => true
  | _ => false

/-- metropolis.py lines 85-86: `for args in arg: self.dfunc = args` — every
positional argument overwrites the `dfunc` attribute, the last one wins. -/
def applyArgs (cfg : Config) : List DFunc → Config
  | [] => cfg
  | a :: rest => applyArgs { cfg with dfunc := a } rest

/-- metropolis.py lines 88-106: the keyword update loop.  Recognized keys
update the corresponding attribute in order; the first unrecognized key
raises, leaving the updates already made in place and processing no further
keys.  Returns the attribute state reached together with the offending key
name, if any. -/
def applyKwargs (cfg : Config) : List Kwarg → Config × Option String
  | [] => (cfg, none)
  | Kwarg.chain n :: rest => applyKwargs { cfg with chain := n } rest
  | Kwarg.theta_init v :: rest => applyKwargs { cfg with theta_init := v } rest
  | Kwarg.jumpdist j :: rest => applyKwargs { cfg with jump := j } rest
  | Kwarg.space s :: rest => applyKwargs { cfg with space := s } rest
  | Kwarg.burnin b :: rest => applyKwargs { cfg with burnin := b } rest
  | Kwarg.seed s :: rest => applyKwargs { cfg with seed := s } rest
  | Kwarg.unknown name :: _ => (cfg, some name)

/-- The two exceptions `MCMC.metropolis` can raise itself (lines 105, 110). -/
inductive MetroError where
  | unsupportedKeyword (name : String) : MetroError
  | dfuncNotCallable : MetroError
deriving DecidableEq, Repr

/-- metropolis.py lines 119-125: the probability of moving.  `0` when the
proposal leaves `space`, `1` when the density at the current point is `0`,
else `min(1, dfunc(theta_pro)/dfunc(theta_cur))`. -/
def pmoving (f : ℚ → ℚ) (sp : XRat × XRat) (cur pro : ℚ) : ℚ :=
  if qLt pro sp.1 || qGt pro sp.2 then 0
  else if f cur = 0 then 1
  else min 1 (f pro / f cur)

/-- One iteration of the Metropolis loop (lines 116-132): propose
`theta_pro = theta_cur + Δθ`, accept iff the uniform draw `u` satisfies
`u <= pmoving`, in which case the proposal is appended and becomes current;
otherwise the current value is appended unchanged.  Returns the appended
value, which is also the next current value in both branches. -/
def metroStep (f : ℚ → ℚ) (sp : XRat × XRat) (cur dtheta u : ℚ) : ℚ :=
  let pro := cur + dtheta
  if u ≤ pmoving f sp cur pro then pro else cur

/-- metropolis.py lines 116-133: the `while True` loop.  `freq` is the
accumulated `theta_freq`, `cur` the current `theta_cur`, `k` the number of
iterations already performed (indexing the draw streams).  The loop body
always runs, appends one element, and breaks once
`len(theta_freq) >= self.chain` — the check happens only after the append. -/
def metroLoop (f : ℚ → ℚ) (sp : XRat × XRat) (jumps unifs : Nat → ℚ)
    (chain : Nat) (cur : ℚ) (freq : List ℚ) (k : Nat) : List ℚ :=
  let nxt := metroStep f sp cur (jumps k) (unifs k)
  let freq2 := freq ++ [nxt]
  if chain ≤ freq2.length then freq2
  else metroLoop f sp jumps unifs chain nxt freq2 (k + 1)
termination_by chain - freq.length
decreasing_by
  unfold freq2 at *
  simp only [List.length_append, List.length_cons, List.length_nil] at *
  omega

/-- `MCMC.metropolis` (metropolis.py lines 53-135): update attributes from
positional and keyword arguments, validate `dfunc`, then run the chain and
return it with the first `burnin` elements dropped.  The first component of
the result is the attribute state of the object after the call (updates are
in place and are not rolled back on error); the second is the raised
exception or the returned list.  `unifs` is the stream of acceptance
uniforms the shared generator would produce. -/
def metropolis (cfg : Config) (args : List DFunc) (kwargs : List Kwarg)
    (unifs : Nat → ℚ) : Config × Except MetroError (List ℚ) :=
  let cfg1 := applyArgs cfg args
  match applyKwargs cfg1 kwargs with
  | (cfg2, some name) => (cfg2, Except.error (MetroError.unsupportedKeyword name))
  | (cfg2, none) =>
    match cfg2.dfunc with
    | DFunc.notCallable => (cfg2, Except.error MetroError.dfuncNotCallable)
    | DFunc.callable f =>
        (cfg2, Except.ok ((metroLoop f cfg2.space cfg2.jump unifs cfg2.chain
          cfg2.theta_init [cfg2.theta_init] 0).drop cfg2.burnin))

/-! ## Hamiltonian Monte Carlo (HMC.py) -/

/-- Elementwise vector addition (`numpy` array `+`). -/
def vadd (a b : List ℚ) : List ℚ := List.zipWith (· + ·) a b

/-- Elementwise vector subtraction (`numpy` array `-`). -/
def vsub (a b : List ℚ) : List ℚ := List.zipWith (· - ·) a b

/-- Scalar times vector (`numpy` scalar `*` array). -/
def smul (c : ℚ) (v : List ℚ) : List ℚ := v.map (fun x => c * x)

/-- Vector negation (`numpy` unary `-`, which allocates a fresh array). -/
def vneg (v : List ℚ) : List ℚ := v.map (fun x => -x)

/-- `sum(v**2)` as used in the kinetic energies (HMC.py lines 47, 49). -/
def sumSq (v : List ℚ) : ℚ := (v.map (fun x => x * x)).sum

/-- The state of the numpy generator `np.random.default_rng(seed)`:
the seed it was constructed from and how many raw draws it has produced.
The generator algorithm itself is external; two states with the same seed
and position yield the same remaining draw sequence. -/
structure RNG where
  seed : Option Nat
  pos : Nat
deriving DecidableEq, Repr

/-- `np.random.default_rng(seed)`: a fresh generator at position 0. -/
def default_rng (seed : Option Nat) : RNG := RNG.mk seed 0

/-- The draw sequence a generator state produces, given the (external)
raw output `stream` of the numpy bit generator as a function of seed and
position. -/
def RNG.draws (g : RNG) (stream : Option Nat → Nat → ℚ) (n : Nat) : ℚ :=
  stream g.seed (g.pos + n)

/-- The `Proposed` object of HMC.py (lines 7-19): dimension and seed. -/
structure Proposed where
  dim : Nat
  seed : Option Nat

/-- The generator `Proposed.jump` constructs (HMC.py line 15):
`np.random.default_rng(self.seed)`. -/
def Proposed.rng (pr : Proposed) : RNG := default_rng pr.seed

/-- The distribution the momentum is drawn from, by its parameters as
passed to the numpy generator. -/
inductive MomentumDist where
  | normal (mean sd : ℚ) : MomentumDist
  | multivariateNormal (mean : List ℚ) (cov : List (List ℚ)) : MomentumDist
deriving DecidableEq, Repr

/-- `np.zeros(n)` as a vector. -/
def npZeros (n : Nat) : List ℚ := List.replicate n 0

/-- `np.ones((n, n))`: the all-ones `n × n` matrix. -/
def npOnesSq (n : Nat) : List (List ℚ) := List.replicate n (List.replicate n 1)

/-- The distribution parameters `Proposed.jump` passes to the generator
(HMC.py lines 14-19): `rng.normal(0, 1, 1)` when `dim == 1`, else
`rng.multivariate_normal(np.zeros(dim), np.ones((dim, dim)), 1)`. -/
def Proposed.jumpDist (pr : Proposed) : MomentumDist :=
  if pr.dim = 1 then MomentumDist.normal 0 1
  else MomentumDist.multivariateNormal (npZeros pr.dim) (npOnesSq pr.dim)

/-- Modelled from the spec: the momentum distribution the spec prescribes,
`MultivariateNormal(0, I_d)` — mean zero and the `d × d` identity matrix as
covariance — for comparison with `Proposed.jumpDist`. -/
def specMomentumDist (d : Nat) : MomentumDist :=
  MomentumDist.multivariateNormal (npZeros d)
    ((List.range d).map (fun i => (List.range d).map (fun j => if i = j then (1 : ℚ) else 0)))

/-- The generator the acceptance uniform is drawn from (HMC.py line 53):
`np.random.default_rng(seed)`. -/
def acceptRng (seed : Option Nat) : RNG := default_rng seed

/-- HMC.py lines 32-36, the `for _ in range(L-1)` loop: `n` remaining full
steps, each doing `q += eps * p` then `p -= eps * gradU(q)` in place.  The
third component counts gradient-oracle evaluations. -/
def fullSteps (gradU : List ℚ → List ℚ) (eps : ℚ) :
    Nat → List ℚ × List ℚ → List ℚ × List ℚ × Nat
  | 0, (q, p) => (q, p, 0)
  | n + 1, (q, p) =>
      let q2 := vadd q (smul eps p)
      let p2 := vsub p (smul eps (gradU q2))
      let rest := fullSteps gradU eps n (q2, p2)
      (rest.1, rest.2.1, rest.2.2 + 1)

/-- The leapfrog trajectory of `HMC` (HMC.py lines 27-41) from initial
position `q0` and drawn momentum `p0`: initial half momentum step, `L - 1`
full steps, final full position step and final half momentum step.  Both
`q` and `p` are mutated in place throughout.  Returns the final value held
by the `q` array, the final value held by the `p` array (before the
negation on line 43, which rebinds `p` to a fresh array), and the number of
gradient evaluations performed. -/
def HMCtraj (gradU : List ℚ → List ℚ) (eps : ℚ) (L : Nat)
    (q0 p0 : List ℚ) : List ℚ × List ℚ × Nat :=
  let p1 := vsub p0 (smul eps (gradU q0) |>.map (fun x => x / 2))
  let mid := fullSteps gradU eps (L - 1) (q0, p1)
  let qEnd := vadd mid.1 (smul eps mid.2.1)
  let pEnd := vsub mid.2.1 (smul eps (gradU qEnd) |>.map (fun x => x / 2))
  (qEnd, pEnd, mid.2.2 + 2)

/-- Everything observable about one `HMC(U, eps, L, current_q, seed)` call
(HMC.py lines 22-56). -/
structure HMCResult where
  result : List ℚ
  inputAfter : List ℚ
  current_U : ℚ
  current_K : ℚ
  proposed_U : ℚ
  proposed_K : ℚ
  accepted : Bool
  gradEvals : Nat

/-- The `HMC` transition (HMC.py lines 22-56).  `U` is the potential,
`gradU` the external gradient oracle `autolik.grad(U)`, `p0` the momentum
vector the generator delivers, `expf` the external `np.exp`, and `u` the
acceptance uniform `np.random.default_rng(seed).uniform()`.

Aliasing, traced from the source: `q = current_q` binds `q` to the caller's
array, so the in-place `q += eps * p` updates leave `current_q` holding the
end-of-trajectory position when `U(current_q)` is evaluated on line 46;
likewise `current_p = p` aliases the momentum array, which is mutated in
place up to the rebinding `p = -p` on line 43, so `current_p` holds the
final pre-negation momentum on line 47.  Both `return q` and
`return current_q` return that same mutated array. -/
def HMC (U : List ℚ → ℚ) (gradU : List ℚ → List ℚ) (eps : ℚ) (L : Nat)
    (current_q p0 : List ℚ) (expf : ℚ → ℚ) (u : ℚ) : HMCResult :=
  let traj := HMCtraj gradU eps L current_q p0
  let q := traj.1
  let pPre := traj.2.1
  let p := vneg pPre
  let current_U := U q
  let current_K := sumSq pPre / 2
  let proposed_U := U q
  let proposed_K := sumSq p / 2
  let accepted := decide (u < expf (current_U - proposed_U + current_K - proposed_K))
  { result := if accepted then q else q
    inputAfter := q
    current_U := current_U
    current_K := current_K
    proposed_U := proposed_U
    proposed_K := proposed_K
    accepted := accepted
    gradEvals := traj.2.2 }

/-- `HMC` driven from a seed: the momentum comes from the generator built in
`Proposed.jump` (`(Proposed.mk current_q.length seed).rng`), the acceptance
uniform from the generator built on line 53 (`acceptRng seed`); the decoding
of raw generator output into a normal vector and a uniform is external. -/
def HMCfromSeed (U : List ℚ → ℚ) (gradU : List ℚ → List ℚ) (eps : ℚ) (L : Nat)
    (current_q : List ℚ) (seed : Option Nat)
    (normalDecode : RNG → Nat → List ℚ) (uniformDecode : RNG → ℚ)
    (expf : ℚ → ℚ) : HMCResult :=
  HMC U gradU eps L current_q
    (normalDecode (Proposed.mk current_q.length seed).rng current_q.length)
    expf (uniformDecode (acceptRng seed))

/-! ## Helper lemmas about the Metropolis loop -/

/-- The sequence of current states of the Metropolis loop: state `0` is the
initial value, state `k + 1` results from iteration `k`. -/
def metroStates (f : ℚ → ℚ) (sp : XRat × XRat) (jumps unifs : Nat → ℚ)
    (t0 : ℚ) : Nat → ℚ
  | 0 => t0
  | k + 1 => metroStep f sp (metroStates f sp jumps unifs t0 k) (jumps k) (unifs k)

/-- The full accumulated chain `theta_freq` of one run, before burn-in
trimming, exactly as `MCMC.metropolis` builds it. -/
def runChain (f : ℚ → ℚ) (sp : XRat × XRat) (jumps unifs : Nat → ℚ)
    (chain : Nat) (t0 : ℚ) : List ℚ :=
  metroLoop f sp jumps unifs chain t0 [t0] 0

/-- The list a `metropolis` call returns, `[]` when it raises. -/
def chainOf : Except MetroError (List ℚ) → List ℚ
  | Except.ok l => l
  | Except.error _ => []

/-- Whether a `metropolis` call raised. -/
def isErr : Except MetroError (List ℚ) → Bool
  | Except.ok _ => false
  | Except.error _ => true

/-- `true` iff every element of `l` lies in `[lo, hi]`. -/
def inBounds (lo hi : ℚ) (l : List ℚ) : Bool :=
  l.all (fun x => decide (lo ≤ x ∧ x ≤ hi))

/-- Modelled from the spec (claim C5 wording): the acceptance probability of
one Metropolis iteration — `0` if the proposal lies outside the space, else
`1` if the density at the current state is `0`, else
`min(1, density(θ_pro)/density(θ_cur))`. -/
def specAccept (density : ℚ → ℚ) (sp : XRat × XRat) (cur pro : ℚ) : ℚ :=
  if qLt pro sp.1 || qGt pro sp.2 then 0
  else if density cur = 0 then 1
  else min 1 (density pro / density cur)

/-- Modelled from the spec (claim C5 wording): the chain state after `k`
iterations — the proposal `θ_cur + Δθ` is accepted and becomes current
exactly when the uniform draw satisfies `u <= specAccept`, else the current
state is kept unchanged. -/
def specStates (density : ℚ → ℚ) (sp : XRat × XRat) (jumps unifs : Nat → ℚ)
    (t0 : ℚ) : Nat → ℚ
  | 0 => t0
  | k + 1 =>
      let cur := specStates density sp jumps unifs t0 k
      let pro := cur + jumps k
      if unifs k ≤ specAccept density sp cur pro then pro else cur

/-! ## Concrete instances used as counterexamples and witnesses -/

/-- The constant density `1` (callable, never zero). -/
def constDensity : ℚ → ℚ := fun _ => 1

/-- A jump distribution that always proposes `Δθ = 0`. -/
def zeroStream : Nat → ℚ := fun _ => 0

/-- A uniform stream that always draws `1/2`. -/
def halfStream : Nat → ℚ := fun _ => 1 / 2

/-- The default unbounded `space = [-np.inf, np.inf]`. -/
def fullSpace : XRat × XRat := (XRat.negInf, XRat.posInf)

/-- `space = [0, 1]`. -/
def unitSpace : XRat × XRat := (XRat.fin 0, XRat.fin 1)

/-- A configuration with `chain = 1`, `burnin = 0`. -/
def cfgChainOne : Config :=
  { dfunc := DFunc.callable constDensity, chain := 1, theta_init := 0,
    jump := zeroStream, space := fullSpace, burnin := 0, seed := none }

/-- A configuration on `space = [0, 1]` started inside the space. -/
def cfgUnit : Config :=
  { dfunc := DFunc.callable constDensity, chain := 2, theta_init := 1 / 2,
    jump := zeroStream, space := unitSpace, burnin := 0, seed := none }

/-- A configuration on `space = [0, 1]` started at `theta_init = 5`,
outside the space. -/
def cfgOutside : Config :=
  { dfunc := DFunc.callable constDensity, chain := 2, theta_init := 5,
    jump := zeroStream, space := unitSpace, burnin := 0, seed := none }

/-- The harmonic potential `U(q) = |q|² / 2`. -/
def qU : List ℚ → ℚ := fun q => sumSq q / 2

/-- The exact gradient oracle for `qU`: `∇U(q) = q`. -/
def qGradOracle : List ℚ → List ℚ := fun q => q

/-- A stand-in for the external `np.exp` in concrete runs (its value is
irrelevant to the facts proved at those runs). -/
def expOne : ℚ → ℚ := fun _ => 1

theorem metroStates_succ (f : ℚ → ℚ) (sp : XRat × XRat)
    (jumps unifs : Nat → ℚ) (t0 : ℚ) (k : Nat) :
    metroStates f sp jumps unifs t0 (k + 1)
      = metroStep f sp (metroStates f sp jumps unifs t0 k) (jumps k) (unifs k) := rfl

theorem map_range_snoc (st : Nat → ℚ) (k : Nat) :
    (List.range (k + 2)).map st = (List.range (k + 1)).map st ++ [st (k + 1)] := by
  rw [show (List.range (k + 2)) = List.range (k + 1) ++ [k + 1] from List.range_succ (k + 1)]
  rw [List.map_append]
  rfl

theorem metroLoop_eq_map (f : ℚ → ℚ) (sp : XRat × XRat)
    (jumps unifs : Nat → ℚ) (t0 : ℚ) :
    ∀ (n chain k : Nat), chain ≤ k + 1 + n →
      metroLoop f sp jumps unifs chain (metroStates f sp jumps unifs t0 k)
        ((List.range (k + 1)).map (metroStates f sp jumps unifs t0)) k
      = (List.range (max chain (k + 2))).map (metroStates f sp jumps unifs t0) := by
  intro n
  induction n with
  | zero =>
      intro chain k h
      rw [metroLoop]
      have hcond : chain ≤ ((List.range (k + 1)).map (metroStates f sp jumps unifs t0)
          ++ [metroStep f sp (metroStates f sp jumps unifs t0 k) (jumps k) (unifs k)]).length := by
        simp only [List.length_append, List.length_map, List.length_range,
          List.length_cons, List.length_nil]
        omega
      simp only [hcond, if_true]
      have hmax : max chain (k + 2) = k + 2 := by omega
      rw [hmax, map_range_snoc, metroStates_succ]
  | succ n ih =>
      intro chain k h
      rw [metroLoop]
      by_cases hc : chain ≤ k + 2
      · have hcond : chain ≤ ((List.range (k + 1)).map (metroStates f sp jumps unifs t0)
            ++ [metroStep f sp (metroStates f sp jumps unifs t0 k) (jumps k) (unifs k)]).length := by
          simp only [List.length_append, List.length_map, List.length_range,
            List.length_cons, List.length_nil]
          omega
        simp only [hcond, if_true]
        have hmax : max chain (k + 2) = k + 2 := by omega
        rw [hmax, map_range_snoc, metroStates_succ]
      · have hcond : ¬ chain ≤ ((List.range (k + 1)).map (metroStates f sp jumps unifs t0)
            ++ [metroStep f sp (metroStates f sp jumps unifs t0 k) (jumps k) (unifs k)]).length := by
          simp only [List.length_append, List.length_map, List.length_range,
            List.length_cons, List.length_nil]
          omega
        simp only [hcond, if_false]
        rw [← metroStates_succ f sp jumps unifs t0 k]
        rw [show (List.range (k + 1)).map (metroStates f sp jumps unifs t0)
            ++ [metroStates f sp jumps unifs t0 (k + 1)]
            = (List.range (k + 2)).map (metroStates f sp jumps unifs t0) from
          (map_range_snoc (metroStates f sp jumps unifs t0) k).symm]
        have hIH := ih chain (k + 1) (by omega)
        have e1 : k + 1 + 1 = k + 2 := by omega
        have e2 : k + 1 + 2 = k + 3 := by omega
        rw [e1, e2] at hIH
        rw [hIH]
        have h1 : max chain (k + 3) = chain := by omega
        have h2 : max chain (k + 2) = chain := by omega
        rw [h1, h2]

/-- The full chain is the map of the state sequence over
`List.range (max chain 2)`. -/
theorem runChain_eq_map (f : ℚ → ℚ) (sp : XRat × XRat)
    (jumps unifs : Nat → ℚ) (chain : Nat) (t0 : ℚ) :
    runChain f sp jumps unifs chain t0
      = (List.range (max chain 2)).map (metroStates f sp jumps unifs t0) := by
  have := metroLoop_eq_map f sp jumps unifs t0 chain chain 0 (by omega)
  simpa [runChain, metroStates] using this

/-- The full chain always has `max chain 2` elements. -/
theorem runChain_length (f : ℚ → ℚ) (sp : XRat × XRat)
    (jumps unifs : Nat → ℚ) (chain : Nat) (t0 : ℚ) :
    (runChain f sp jumps unifs chain t0).length = max chain 2 := by
  rw [runChain_eq_map]; simp

/-- When the keyword update phase succeeds and the density is callable,
`metropolis` returns the run chain with the first `burnin` elements
dropped. -/
theorem metropolis_ok (cfg : Config) (args : List DFunc) (kwargs : List Kwarg)
    (unifs : Nat → ℚ) (cfg2 : Config) (f : ℚ → ℚ)
    (h1 : applyKwargs (applyArgs cfg args) kwargs = (cfg2, none))
    (h2 : cfg2.dfunc = DFunc.callable f) :
    metropolis cfg args kwargs unifs
      = (cfg2, Except.ok
          ((runChain f cfg2.space cfg2.jump unifs cfg2.chain cfg2.theta_init).drop
            cfg2.burnin)) := by
  simp only [metropolis]
  rw [h1]
  simp only [h2]
  rfl

/-- Negating a vector does not change its sum of squares. -/
theorem sumSq_vneg (v : List ℚ) : sumSq (vneg v) = sumSq v := by
  induction v with
  | nil => rfl
  | cons a t ih =>
      simp only [vneg, sumSq, List.map_cons, List.sum_cons] at *
      rw [show (-a) * (-a) = a * a by ring]
      rw [ih]

/-- The full-step loop performs exactly one gradient evaluation per step. -/
theorem fullSteps_count (gradU : List ℚ → List ℚ) (eps : ℚ) :
    ∀ (n : Nat) (s : List ℚ × List ℚ), (fullSteps gradU eps n s).2.2 = n := by
  intro n
  induction n with
  | zero => intro s; rfl
  | succ n ih => intro s; simp only [fullSteps, ih]

/-- An HMC trajectory with `L` leapfrog steps evaluates the gradient oracle
`L + 1` times when `L ≥ 1` (one initial half step, `L - 1` full steps, one
final half step). -/
theorem HMCtraj_count (gradU : List ℚ → List ℚ) (eps : ℚ) (L : Nat)
    (q0 p0 : List ℚ) (hL : 1 ≤ L) :
    (HMCtraj gradU eps L q0 p0).2.2 = L + 1 := by
  simp only [HMCtraj, fullSteps_count]
  omega

/-- The keyword update loop never touches the `dfunc` attribute. -/
theorem applyKwargs_dfunc (kws : List Kwarg) :
    ∀ c : Config, ((applyKwargs c kws).1).dfunc = c.dfunc := by
  induction kws with
  | nil => intro c; rfl
  | cons kw rest ih =>
      intro c
      cases kw <;> simp only [applyKwargs] <;> rw [ih]

/-- The keyword update loop reports no offending key exactly when no
keyword is unrecognized. -/
theorem applyKwargs_none_iff (kws : List Kwarg) :
    ∀ c : Config,
      (applyKwargs c kws).2 = none ↔ kws.any Kwarg.isUnknown = false := by
  induction kws with
  | nil => intro c; simp [applyKwargs]
  | cons kw rest ih =>
      intro c
      cases kw <;>
        simp only [applyKwargs, List.any_cons, Kwarg.isUnknown, Bool.false_or,
          Bool.true_or, ih, reduceCtorEq]

/-- Processing keywords up to the first unrecognized one: the recognized
prefix is applied, the unrecognized key is reported, the suffix is never
processed. -/
theorem applyKwargs_append_unknown (kws1 : List Kwarg) :
    ∀ (c : Config) (s : String) (kws2 : List Kwarg),
      kws1.any Kwarg.isUnknown = false →
      applyKwargs c (kws1 ++ Kwarg.unknown s :: kws2)
        = ((applyKwargs c kws1).1, some s) := by
  induction kws1 with
  | nil => intro c s kws2 _; rfl
  | cons kw rest ih =>
      intro c s kws2 h
      simp only [List.any_cons, Bool.or_eq_false_iff] at h
      cases kw <;>
        first
        | (simp only [List.cons_append, applyKwargs]; exact ih _ s kws2 h.2)
        | (exact absurd h.1 (by simp [Kwarg.isUnknown]))

/-- One Metropolis step keeps the state inside a finite `space = [lo, hi]`
provided the state is inside and the acceptance uniform is positive. -/
theorem metroStep_bounds (f : ℚ → ℚ) (lo hi : ℚ) (cur dtheta u : ℚ)
    (hu : 0 < u) (hcur : lo ≤ cur ∧ cur ≤ hi) :
    lo ≤ metroStep f (XRat.fin lo, XRat.fin hi) cur dtheta u
      ∧ metroStep f (XRat.fin lo, XRat.fin hi) cur dtheta u ≤ hi := by
  simp only [metroStep, pmoving]
  by_cases hout : (qLt (cur + dtheta) (XRat.fin lo, XRat.fin hi).1
      || qGt (cur + dtheta) (XRat.fin lo, XRat.fin hi).2) = true
  · simp only [hout, if_true]
    have hnot : ¬ u ≤ 0 := not_le.mpr hu
    simp only [hnot, if_false]
    exact hcur
  · simp only [hout, Bool.false_eq_true, if_false]
    simp only [qLt, qGt, Bool.or_eq_true, decide_eq_true_eq] at hout
    push_neg at hout
    by_cases hacc : u ≤ if f cur = 0 then 1 else min 1 (f (cur + dtheta) / f cur)
    · rw [if_pos hacc]
      exact ⟨hout.1, hout.2⟩
    · rw [if_neg hacc]
      exact hcur

/-- All loop states stay inside a finite space when the start is inside and
every acceptance uniform is positive. -/
theorem metroStates_bounds (f : ℚ → ℚ) (lo hi : ℚ) (jumps unifs : Nat → ℚ)
    (t0 : ℚ) (hu : ∀ k, 0 < unifs k) (h0 : lo ≤ t0 ∧ t0 ≤ hi) :
    ∀ k, lo ≤ metroStates f (XRat.fin lo, XRat.fin hi) jumps unifs t0 k
      ∧ metroStates f (XRat.fin lo, XRat.fin hi) jumps unifs t0 k ≤ hi := by
  intro k
  induction k with
  | zero => exact h0
  | succ k ih =>
      rw [metroStates_succ]
      exact metroStep_bounds f lo hi _ _ _ (hu k) ih

/-- The code's state recursion coincides with the recursion written from
the spec's wording. -/
theorem metroStates_eq_specStates (f : ℚ → ℚ) (sp : XRat × XRat)
    (jumps unifs : Nat → ℚ) (t0 : ℚ) :
    ∀ k, metroStates f sp jumps unifs t0 k = specStates f sp jumps unifs t0 k := by
  intro k
  induction k with
  | zero => rfl
  | succ k ih =>
      rw [metroStates_succ, specStates, ← ih]
      rfl

/-- Projection of `metropolis_ok` to the returned value. -/
theorem metropolis_snd_ok (cfg : Config) (unifs : Nat → ℚ) (f : ℚ → ℚ)
    (hdf : cfg.dfunc = DFunc.callable f) :
    (metropolis cfg [] [] unifs).2
      = Except.ok ((runChain f cfg.space cfg.jump unifs cfg.chain
          cfg.theta_init).drop cfg.burnin) := by
  rw [metropolis_ok cfg [] [] unifs cfg f rfl hdf]

/-! ## Claims -/

/-- Claim C5 (confirmed): each Metropolis iteration draws `Δθ`, proposes
`θ_cur + Δθ`, assigns acceptance probability `0` outside `space`, `1` when
`density(θ_cur) = 0`, else `min(1, density(θ_pro)/density(θ_cur))`, and
accepts (appending the proposal and making it current) exactly when
`u ≤` that probability, appending `θ_cur` unchanged otherwise: the full
chain the loop builds is precisely the trace of that update rule
(`specStates`, written from the claim's wording). -/
theorem C5_metropolis_acceptance (f : ℚ → ℚ) (sp : XRat × XRat)
    (jumps unifs : Nat → ℚ) (chain : Nat) (t0 : ℚ) :
    runChain f sp jumps unifs chain t0
      = (List.range (max chain 2)).map (specStates f sp jumps unifs t0) := by
  rw [runChain_eq_map]
  rw [funext (metroStates_eq_specStates f sp jumps unifs t0)]

/-- Claim C8 (confirmed): the generator used for the momentum draw and the
generator used for the acceptance uniform are two instances both built by
`default_rng` from the same seed, hence equal as generator states, so they
produce identical underlying draw sequences for every bit-generator
behavior. -/
theorem C8_hmc_double_seeding (dim : Nat) (seed : Option Nat) :
    (Proposed.mk dim seed).rng = acceptRng seed
    ∧ (∀ (stream : Option Nat → Nat → ℚ) (n : Nat),
        ((Proposed.mk dim seed).rng).draws stream n
          = (acceptRng seed).draws stream n)
    ∧ (∀ (U : List ℚ → ℚ) (gradU : List ℚ → List ℚ) (eps : ℚ) (L : Nat)
        (q : List ℚ) (nd : RNG → Nat → List ℚ) (ud : RNG → ℚ) (expf : ℚ → ℚ),
        HMCfromSeed U gradU eps L q seed nd ud expf
          = HMC U gradU eps L q (nd (acceptRng seed) q.length) expf
              (ud (acceptRng seed))) :=
  ⟨rfl, fun _ _ => rfl, fun _ _ _ _ _ _ _ _ => rfl⟩

/-- Claim C9 (confirmed): a Metropolis run always terminates after at most
`chain + 1` loop iterations (the full chain has `max chain 2` elements, one
appended per iteration), and an HMC call always terminates performing
exactly `L + 1 ≤ 2·L` gradient evaluations for `L ≥ 1`. -/
theorem C9_termination_bounds (f : ℚ → ℚ) (sp : XRat × XRat)
    (jumps unifs : Nat → ℚ) (chain : Nat) (t0 : ℚ)
    (U : List ℚ → ℚ) (gradU : List ℚ → List ℚ) (eps : ℚ) (L : Nat)
    (q0 p0 : List ℚ) (expf : ℚ → ℚ) (u : ℚ) (hL : 1 ≤ L) :
    (runChain f sp jumps unifs chain t0).length - 1 ≤ chain + 1
    ∧ (HMC U gradU eps L q0 p0 expf u).gradEvals = L + 1
    ∧ (HMC U gradU eps L q0 p0 expf u).gradEvals ≤ 2 * L := by
  have h1 := runChain_length f sp jumps unifs chain t0
  have h2 : (HMC U gradU eps L q0 p0 expf u).gradEvals
      = (HMCtraj gradU eps L q0 p0).2.2 := rfl
  rw [HMCtraj_count gradU eps L q0 p0 hL] at h2
  exact ⟨by omega, h2, by omega⟩

/-- Witness for C9 at a concrete configuration. -/
theorem C9_termination_bounds_witness :
    (runChain constDensity fullSpace zeroStream halfStream 5 0).length - 1 ≤ 5 + 1
    ∧ (HMC qU qGradOracle 1 3 [0] [2] expOne (1 / 2)).gradEvals = 3 + 1
    ∧ (HMC qU qGradOracle 1 3 [0] [2] expOne (1 / 2)).gradEvals ≤ 2 * 3 :=
  C9_termination_bounds constDensity fullSpace zeroStream halfStream 5 0
    qU qGradOracle 1 3 [0] [2] expOne (1 / 2) (by norm_num)

/-- Claim C3 counterexample: with `chain = 1`, `burnin = 0` (valid per the
claim: `N ≥ 1`, `N > B ≥ 0`) the run returns 2 elements, not `N − B = 1`,
because the loop checks the length only after appending. -/
theorem C3_length_counterexample :
    (chainOf (metropolis cfgChainOne [] [] zeroStream).2).length
        ≠ cfgChainOne.chain - cfgChainOne.burnin
    ∧ 1 ≤ cfgChainOne.chain ∧ cfgChainOne.burnin < cfgChainOne.chain := by
  refine ⟨?_, by norm_num [cfgChainOne], by norm_num [cfgChainOne]⟩
  rw [metropolis_snd_ok cfgChainOne zeroStream constDensity rfl]
  simp only [chainOf]
  rw [List.length_drop, runChain_length]
  norm_num [cfgChainOne]

/-- Claim C3 (corrected): for every `N ≥ 2` and `N > B ≥ 0` the returned
sequence has exactly `N − B` elements. -/
theorem C3_length_amended (cfg : Config) (unifs : Nat → ℚ) (f : ℚ → ℚ)
    (hdf : cfg.dfunc = DFunc.callable f) (hN : 2 ≤ cfg.chain)
    (hB : cfg.burnin < cfg.chain) :
    (chainOf (metropolis cfg [] [] unifs).2).length
      = cfg.chain - cfg.burnin := by
  rw [metropolis_snd_ok cfg unifs f hdf]
  simp only [chainOf]
  rw [List.length_drop, runChain_length]
  omega

/-- Witness for C3 at a concrete configuration. -/
theorem C3_length_amended_witness :
    (chainOf (metropolis cfgUnit [] [] halfStream).2).length
      = cfgUnit.chain - cfgUnit.burnin :=
  C3_length_amended cfgUnit halfStream constDensity rfl
    (by norm_num [cfgUnit]) (by norm_num [cfgUnit])

/-- Claim C4 counterexample: a run with bounds `space = [0, 1]` but
`theta_init = 5` returns a chain with elements outside the space — the
initial value is never checked against the bounds. -/
theorem C4_domain_counterexample :
    cfgOutside.space = (XRat.fin 0, XRat.fin 1)
    ∧ inBounds 0 1 (chainOf (metropolis cfgOutside [] [] halfStream).2) = false := by
  refine ⟨rfl, ?_⟩
  rw [metropolis_snd_ok cfgOutside halfStream constDensity rfl]
  simp only [chainOf]
  rw [runChain_eq_map]
  decide

/-- Claim C4 (corrected): provided the initial value lies inside the finite
bounds `[lo, hi]` and every acceptance uniform draw is strictly positive,
every element of the returned chain satisfies `lo ≤ θ ≤ hi`. -/
theorem C4_domain_amended (cfg : Config) (unifs : Nat → ℚ) (f : ℚ → ℚ)
    (lo hi : ℚ) (hdf : cfg.dfunc = DFunc.callable f)
    (hsp : cfg.space = (XRat.fin lo, XRat.fin hi))
    (hlo : lo ≤ cfg.theta_init) (hhi : cfg.theta_init ≤ hi)
    (hu : ∀ k, 0 < unifs k) :
    inBounds lo hi (chainOf (metropolis cfg [] [] unifs).2) = true := by
  rw [metropolis_snd_ok cfg unifs f hdf]
  simp only [chainOf]
  rw [hsp, runChain_eq_map]
  simp only [inBounds]
  refine List.all_eq_true.mpr ?_
  intro x hx
  have hx2 : x ∈ (List.range (max cfg.chain 2)).map
      (metroStates f (XRat.fin lo, XRat.fin hi) cfg.jump unifs cfg.theta_init) :=
    List.drop_subset _ _ hx
  obtain ⟨i, hmem, rfl⟩ := List.mem_map.mp hx2
  exact decide_eq_true
    (metroStates_bounds f lo hi cfg.jump unifs cfg.theta_init hu ⟨hlo, hhi⟩ i)

/-- Witness for C4 at a concrete configuration. -/
theorem C4_domain_amended_witness :
    inBounds 0 1 (chainOf (metropolis cfgUnit [] [] halfStream).2) = true :=
  C4_domain_amended cfgUnit halfStream constDensity 0 1 rfl rfl
    (by norm_num [cfgUnit]) (by norm_num [cfgUnit])
    (fun k => by norm_num [halfStream])

/-- Claim C1 (code bug): because `current_q` aliases the in-place-mutated
`q` and `current_p` aliases the in-place-mutated `p` (rebound only by
`p = -p`), both Hamiltonians are computed from the end-of-trajectory state:
`current_U = proposed_U` and `current_K = proposed_K` for every input, so
the exponent is always `0` — not `U(current_q) + |current_p|²/2` of the
initial position and initially drawn momentum.  At the concrete input
`U(q) = |q|²/2`, `eps = 1`, `L = 1`, `current_q = [0]`, drawn `p = [2]`,
the code's `current_U` is `2` although `U` at the initial position is `0`,
and the code's `current_K` is `1/2` although the kinetic energy of the
drawn momentum is `2`. -/
theorem C1_hmc_energy_aliasing :
    (∀ (U : List ℚ → ℚ) (gradU : List ℚ → List ℚ) (eps : ℚ) (L : Nat)
        (q0 p0 : List ℚ) (expf : ℚ → ℚ) (u : ℚ),
        (HMC U gradU eps L q0 p0 expf u).current_U
            = (HMC U gradU eps L q0 p0 expf u).proposed_U
        ∧ (HMC U gradU eps L q0 p0 expf u).current_K
            = (HMC U gradU eps L q0 p0 expf u).proposed_K)
    ∧ (HMC qU qGradOracle 1 1 [0] [2] expOne (1 / 2)).current_U = 2
    ∧ qU [0] = 0
    ∧ (HMC qU qGradOracle 1 1 [0] [2] expOne (1 / 2)).current_K = 1 / 2
    ∧ sumSq [(2 : ℚ)] / 2 = 2 := by
  refine ⟨fun U gradU eps L q0 p0 expf u => ⟨rfl, ?_⟩,
    by norm_num [HMC, HMCtraj, fullSteps, vadd, vsub, smul, vneg, sumSq, qU,
      qGradOracle],
    by norm_num [qU, sumSq],
    by norm_num [HMC, HMCtraj, fullSteps, vadd, vsub, smul, vneg, sumSq, qU,
      qGradOracle],
    by norm_num [sumSq]⟩
  show sumSq (HMCtraj gradU eps L q0 p0).2.1 / 2
      = sumSq (vneg (HMCtraj gradU eps L q0 p0).2.1) / 2
  rw [sumSq_vneg]

/-- Claim C2 (code bug): the call mutates the caller's array in place, and
both `return q` and `return current_q` return that same mutated array: the
result always equals the end-of-trajectory position, and the input array no
longer holds the position the caller passed in.  At the concrete input
`U(q) = |q|²/2`, `eps = 1`, `L = 1`, `current_q = [0]`, drawn `p = [2]`,
the array passed in holds `[2] ≠ [0]` after the call. -/
theorem C2_hmc_input_mutated :
    (∀ (U : List ℚ → ℚ) (gradU : List ℚ → List ℚ) (eps : ℚ) (L : Nat)
        (q0 p0 : List ℚ) (expf : ℚ → ℚ) (u : ℚ),
        (HMC U gradU eps L q0 p0 expf u).result
          = (HMC U gradU eps L q0 p0 expf u).inputAfter)
    ∧ (HMC qU qGradOracle 1 1 [0] [2] expOne (1 / 2)).inputAfter = [2]
    ∧ (HMC qU qGradOracle 1 1 [0] [2] expOne (1 / 2)).result = [2]
    ∧ ([2] : List ℚ) ≠ ([0] : List ℚ) := by
  refine ⟨fun U gradU eps L q0 p0 expf u => ?_,
    by norm_num [HMC, HMCtraj, fullSteps, vadd, vsub, smul, vneg, sumSq, qU,
      qGradOracle],
    by norm_num [HMC, HMCtraj, fullSteps, vadd, vsub, smul, vneg, sumSq, qU,
      qGradOracle, expOne],
    by decide⟩
  show (if (HMC U gradU eps L q0 p0 expf u).accepted
        then (HMCtraj gradU eps L q0 p0).1 else (HMCtraj gradU eps L q0 p0).1)
      = (HMCtraj gradU eps L q0 p0).1
  rw [ite_self]

/-- Claim C6 (code bug): for dimension `d = 2` the covariance matrix the
code passes to `multivariate_normal` is `np.ones((2, 2))`, the all-ones
matrix, not the identity `I_2` the claim states (the `d = 1` branch does
draw a standard normal, matching `I_1`). -/
theorem C6_momentum_covariance :
    (Proposed.mk 2 (some 0)).jumpDist
        = MomentumDist.multivariateNormal (npZeros 2) (npOnesSq 2)
    ∧ (Proposed.mk 2 (some 0)).jumpDist ≠ specMomentumDist 2
    ∧ npOnesSq 2 ≠ ((List.range 2).map
        (fun i => (List.range 2).map (fun j => if i = j then (1 : ℚ) else 0)))
    ∧ (Proposed.mk 1 (some 0)).jumpDist = MomentumDist.normal 0 1 := by
  refine ⟨by decide, by decide, by decide, by decide⟩

/-- Claim C7 (confirmed): `metropolis` raises exactly when some keyword is
unrecognized or the density attribute after the positional updates is not
callable; otherwise it returns a chain (so a proposal outside `space` never
raises — it only forces acceptance probability `0`). -/
theorem C7_config_errors (cfg : Config) (args : List DFunc)
    (kwargs : List Kwarg) (unifs : Nat → ℚ) :
    (isErr (metropolis cfg args kwargs unifs).2 = true
      ↔ (kwargs.any Kwarg.isUnknown = true
          ∨ (applyArgs cfg args).dfunc = DFunc.notCallable))
    ∧ (∀ (f : ℚ → ℚ) (sp : XRat × XRat) (cur dtheta : ℚ),
        (qLt (cur + dtheta) sp.1 || qGt (cur + dtheta) sp.2) = true →
        pmoving f sp cur (cur + dtheta) = 0) := by
  constructor
  · rcases hA : applyKwargs (applyArgs cfg args) kwargs with ⟨cfg2, err⟩
    have hdf : cfg2.dfunc = (applyArgs cfg args).dfunc := by
      have h := applyKwargs_dfunc kwargs (applyArgs cfg args)
      rw [hA] at h
      exact h
    cases err with
    | none =>
        have hany : kwargs.any Kwarg.isUnknown = false := by
          have h := applyKwargs_none_iff kwargs (applyArgs cfg args)
          rw [hA] at h
          exact h.mp rfl
        cases hc : cfg2.dfunc with
        | callable f =>
            have hsnd : (metropolis cfg args kwargs unifs).2
                = Except.ok ((runChain f cfg2.space cfg2.jump unifs cfg2.chain
                    cfg2.theta_init).drop cfg2.burnin) := by
              rw [metropolis_ok cfg args kwargs unifs cfg2 f hA hc]
            rw [hsnd]
            simp only [isErr, hany, ← hdf, hc, Bool.false_eq_true, false_iff]
            rintro (h | h)
            · exact absurd h (by simp)
            · exact absurd h (by simp)
        | notCallable =>
            have hsnd : (metropolis cfg args kwargs unifs).2
                = Except.error MetroError.dfuncNotCallable := by
              simp only [metropolis]
              rw [hA]
              simp only [hc]
            rw [hsnd]
            simp only [isErr, true_iff]
            exact Or.inr (hdf ▸ hc)
    | some name =>
        have hsnd : (metropolis cfg args kwargs unifs).2
            = Except.error (MetroError.unsupportedKeyword name) := by
          simp only [metropolis]
          rw [hA]
        rw [hsnd]
        have hany : kwargs.any Kwarg.isUnknown = true := by
          have h := applyKwargs_none_iff kwargs (applyArgs cfg args)
          rw [hA] at h
          cases hb : kwargs.any Kwarg.isUnknown with
          | false => exact absurd (h.mpr hb) (by simp)
          | true => rfl
        simp only [isErr, true_iff]
        exact Or.inl hany
  · intro f sp cur dtheta h
    simp only [pmoving, h, if_true]

/-- Witness for C7 at concrete inputs: an unrecognized keyword raises, and
an out-of-space proposal has acceptance probability `0`. -/
theorem C7_config_errors_witness :
    isErr (metropolis cfgChainOne [] [Kwarg.unknown "oops"] zeroStream).2 = true
    ∧ pmoving constDensity unitSpace 5 (5 + 0) = 0 :=
  ⟨(C7_config_errors cfgChainOne [] [Kwarg.unknown "oops"] zeroStream).1.mpr
      (Or.inl rfl),
    (C7_config_errors cfgChainOne [] [Kwarg.unknown "oops"] zeroStream).2
      constDensity unitSpace 5 0 (by norm_num [qLt, qGt, unitSpace])⟩

/-- Claim C10 (confirmed): when `metropolis` is called with a positional
density and keywords whose first unrecognized entry is `s`, the error is
raised after the recognized prefix has updated the attribute state and
after the positional argument has replaced `dfunc`; the suffix after `s`
is not processed and nothing is rolled back. -/
theorem C10_partial_update (cfg : Config) (fd : DFunc) (kws1 kws2 : List Kwarg)
    (s : String) (unifs : Nat → ℚ) (h : kws1.any Kwarg.isUnknown = false) :
    metropolis cfg [fd] (kws1 ++ Kwarg.unknown s :: kws2) unifs
      = ((applyKwargs (applyArgs cfg [fd]) kws1).1,
          Except.error (MetroError.unsupportedKeyword s))
    ∧ (applyArgs cfg [fd]).dfunc = fd
    ∧ ((applyKwargs (applyArgs cfg [fd]) kws1).1).dfunc = fd := by
  refine ⟨?_, rfl, ?_⟩
  · simp only [metropolis]
    rw [applyKwargs_append_unknown kws1 (applyArgs cfg [fd]) s kws2 h]
  · rw [applyKwargs_dfunc]
    rfl

/-- Witness for C10 at a concrete call: `chain = 7` is applied, the error
names the unrecognized key, and the non-callable positional `dfunc` is in
place unvalidated. -/
theorem C10_partial_update_witness :
    metropolis cfgChainOne [DFunc.notCallable]
        [Kwarg.chain 7, Kwarg.unknown "oops"] zeroStream
      = ((applyKwargs (applyArgs cfgChainOne [DFunc.notCallable])
            [Kwarg.chain 7]).1,
          Except.error (MetroError.unsupportedKeyword "oops"))
    ∧ (applyArgs cfgChainOne [DFunc.notCallable]).dfunc = DFunc.notCallable
    ∧ ((applyKwargs (applyArgs cfgChainOne [DFunc.notCallable])
          [Kwarg.chain 7]).1).dfunc = DFunc.notCallable :=
  C10_partial_update cfgChainOne DFunc.notCallable [Kwarg.chain 7] [] "oops"
    zeroStream rfl

end MCMCRepo
